import Mathlib

/-!
Verification of the goqdsl SQL query-builder.

The repository contains two parallel implementations of the same DSL:
a positional variant (placeholders `$1, $2, ...`; files
`internal/goqdsl/goqdsl.go`, `internal/goqdsl/update.go`, `predicate.go`,
`insert.go`, the positional halves of `delete.go`, and the positional
debug inliner) and a named variant (placeholders `@p1, @p2, ...`; files
`builder.go`, the named halves of `delete.go` and `goqdsl.go`, the named
predicate file, the named debug inliner, and the named-to-positional
bridge).  Both are embedded below, in the namespaces `Positional` and
`Named`.

Go's `any` values carried as query arguments are modelled by the closed
type `Val`; Go machine integers are modelled by unbounded `Int`/`Nat`
(integer overflow of `strconv.Atoi` is outside the model).  Go maps are
modelled by association lists together with a lookup function; theorems
about the named-to-positional bridge show that its output depends on the
mapping only through lookup, which is what "independent of map iteration
order" means in this model.
-/

/-- Model of a Go `any` argument value as it is used by the library:
`nil`, `bool`, integers, or `string`. -/
inductive Val where
  | null : Val
  | bool : Bool → Val
  | int : Int → Val
  | str : String → Val
deriving DecidableEq, Repr

/-- Concatenation of the images of a list under a list-valued function
(used to state declarative renderings of token lists). -/
def cmap (f : α → List β) : List α → List β
  | [] => []
  | a :: l => f a ++ cmap f l

/-- The characters of a positional placeholder `$n`
(Go `fmt.Sprintf("$%d", n)`). -/
def dollarChars (n : Nat) : List Char := '$' :: (toString n).data

/-- Numeric value of a digit run, as computed by Go's `strconv.Atoi`
on the digits captured by the regexp `\$(\d+)` (overflow not modelled). -/
def digitsToNat (ds : List Char) : Nat :=
  ds.foldl (fun a c => a * 10 + (c.toNat - 48)) 0

/-- Association-list lookup, modelling a read from a Go map
(`m[k]` returns the value if present). -/
def alook (k : String) : List (String × α) → Option α
  | [] => none
  | (k', v) :: rest => if k' = k then some v else alook k rest

namespace Positional

/-!
### The `$n` marker scanner of `rawPred.ToSQL` (`predicate.go`)

Go applies `placeholderRe.ReplaceAllStringFunc` with
`placeholderRe = regexp.MustCompile` of the pattern dollar-digits,
replacing each maximal `$<digits>` run by `$<n+offset-1>`.  `shiftA` is
that scan as a character state machine: the second argument buffers the
digits seen since an unconsumed `'$'` (`none` = not inside a candidate
match).  A `'$'` not followed by a digit is not a match and is emitted
verbatim, exactly as the regexp leaves it untouched.
-/

/-- One regexp match being flushed: an empty digit buffer means the `'$'`
was not part of a match; a nonempty buffer is a `$<digits>` match that is
renumbered by `n + offset - 1`. -/
def flushD (off : Nat) (ds : List Char) : List Char :=
  if ds = [] then ['$'] else dollarChars (digitsToNat ds + off - 1)

/-- Character-level scan of `placeholderRe.ReplaceAllStringFunc` in
`rawPred.ToSQL`: renumber every `$<digits>` marker by `+ off - 1`. -/
def shiftA (off : Nat) : List Char → Option (List Char) → List Char
  | [], none => []
  | [], some ds => flushD off ds
  | c :: cs, none =>
    if c = '$' then shiftA off cs (some []) else c :: shiftA off cs none
  | c :: cs, some ds =>
    if c.isDigit then shiftA off cs (some (ds ++ [c]))
    else if c = '$' then flushD off ds ++ shiftA off cs (some [])
    else flushD off ds ++ c :: shiftA off cs none

/-- Declarative tokenization of a raw fragment: literal characters and
`$<digits>` markers carrying their parsed index. -/
inductive DTok where
  | lit : Char → DTok
  | mark : Nat → DTok
deriving DecidableEq, Repr

/-- Tokenizer for `$<digits>` markers, same state machine as `shiftA`
but producing tokens instead of output text. -/
def dToksA : List Char → Option (List Char) → List DTok
  | [], none => []
  | [], some ds => if ds = [] then [.lit '$'] else [.mark (digitsToNat ds)]
  | c :: cs, none =>
    if c = '$' then dToksA cs (some []) else .lit c :: dToksA cs none
  | c :: cs, some ds =>
    if c.isDigit then dToksA cs (some (ds ++ [c]))
    else if ds = [] then
      (if c = '$' then .lit '$' :: dToksA cs (some [])
       else .lit '$' :: .lit c :: dToksA cs none)
    else
      (if c = '$' then .mark (digitsToNat ds) :: dToksA cs (some [])
       else .mark (digitsToNat ds) :: .lit c :: dToksA cs none)

/-- Tokens of a raw fragment. -/
def dToks (cs : List Char) : List DTok := dToksA cs none

/-- Declarative rendering of one token at cursor `off`: literals are kept,
a marker `$n` becomes `$(n + off - 1)`. -/
def renderD (off : Nat) : DTok → List Char
  | .lit c => [c]
  | .mark n => dollarChars (n + off - 1)

/-!
### Positional predicates (`predicate.go`)

The Go `Predicate` interface with its closed set of implementations
(`rawPred`, `eqPred`, ..., `andPred`, `orPred`, `notPred`) is modelled as
an inductive type; each constructor is the corresponding Go constructor
function.  `ToSQL` is the dispatch of the interface method
`ToSQL(offset int) (string, []any, int)`.
-/

inductive Predicate where
  | Raw (sql : String) (args : List Val)
  | Eq (col : String) (val : Val)
  | Neq (col : String) (val : Val)
  | Gt (col : String) (val : Val)
  | Gte (col : String) (val : Val)
  | Lt (col : String) (val : Val)
  | Lte (col : String) (val : Val)
  | Like (col : String) (pattern : String)
  | ILike (col : String) (pattern : String)
  | In (col : String) (vals : List Val)
  | Between (col : String) (low : Val) (high : Val)
  | IsNull (col : String)
  | IsNotNull (col : String)
  | And (preds : List Predicate)
  | Or (preds : List Predicate)
  | Not (pred : Predicate)

/-- The `IN` placeholder list of `inPred.ToSQL`: one `$<off+i>` per value. -/
def inPlaceholders (off : Nat) (n : Nat) : List String :=
  (List.range n).map (fun i => "$" ++ toString (off + i))

mutual

/-- `Predicate.ToSQL` from `predicate.go`: render a predicate at the given
placeholder offset, returning the SQL fragment, the contributed argument
values, and the next free offset. -/
def Predicate.ToSQL : Predicate → Nat → String × List Val × Nat
  | .Raw sql args, off =>
    (String.mk (shiftA off sql.data none), args, off + args.length)
  | .Eq col v, off => (col ++ " = $" ++ toString off, [v], off + 1)
  | .Neq col v, off => (col ++ " != $" ++ toString off, [v], off + 1)
  | .Gt col v, off => (col ++ " > $" ++ toString off, [v], off + 1)
  | .Gte col v, off => (col ++ " >= $" ++ toString off, [v], off + 1)
  | .Lt col v, off => (col ++ " < $" ++ toString off, [v], off + 1)
  | .Lte col v, off => (col ++ " <= $" ++ toString off, [v], off + 1)
  | .Like col pat, off =>
    (col ++ " LIKE $" ++ toString off, [Val.str pat], off + 1)
  | .ILike col pat, off =>
    (col ++ " ILIKE $" ++ toString off, [Val.str pat], off + 1)
  | .In col vals, off =>
    (col ++ " IN (" ++ String.intercalate ", " (inPlaceholders off vals.length) ++ ")",
     vals, off + vals.length)
  | .Between col low high, off =>
    (col ++ " BETWEEN $" ++ toString off ++ " AND $" ++ toString (off + 1),
     [low, high], off + 2)
  | .IsNull col, off => (col ++ " IS NULL", [], off)
  | .IsNotNull col, off => (col ++ " IS NOT NULL", [], off)
  | .And ps, off => combinePredicates ps "AND" off
  | .Or ps, off => combinePredicates ps "OR" off
  | .Not p, off =>
    let r := Predicate.ToSQL p off
    ("NOT (" ++ r.1 ++ ")", r.2.1, r.2.2)
termination_by structural p => p

/-- `combinePredicates` from `predicate.go`: empty list renders empty,
a singleton renders as the predicate itself, two or more render each child
left to right (threading the offset), join with the operator and wrap in
one pair of parentheses. -/
def combinePredicates : List Predicate → String → Nat → String × List Val × Nat
  | [], _, off => ("", [], off)
  | [p], _, off => Predicate.ToSQL p off
  | p :: q :: rest, op, off =>
    let r := Predicate.ToSQL p off
    let r2 := combineAux (q :: rest) r.2.2
    ("(" ++ String.intercalate (" " ++ op ++ " ") (r.1 :: r2.1) ++ ")",
     r.2.1 ++ r2.2.1, r2.2.2)
termination_by structural ps => ps

/-- The `for _, p := range preds` loop body of `combinePredicates`:
collect each child's fragment, concatenate their argument lists, and
thread the offset. -/
def combineAux : List Predicate → Nat → List String × List Val × Nat
  | [], off => ([], [], off)
  | p :: rest, off =>
    let r := Predicate.ToSQL p off
    let r2 := combineAux rest r.2.2
    (r.1 :: r2.1, r.2.1 ++ r2.2.1, r2.2.2)
termination_by structural ps => ps

end

/-!
### Positional statement builders
(`internal/goqdsl/goqdsl.go`, `internal/goqdsl/update.go`, `insert.go`,
and the positional `DeleteBuilder` of `delete.go`)
-/

inductive JoinType where
  | InnerJoinType | LeftJoinType | RightJoinType | FullJoinType
deriving DecidableEq, Repr

/-- `JoinType.String()`. -/
def JoinType.str : JoinType → String
  | .LeftJoinType => "LEFT JOIN"
  | .RightJoinType => "RIGHT JOIN"
  | .FullJoinType => "FULL JOIN"
  | .InnerJoinType => "INNER JOIN"

inductive OrderDir where
  | Asc | Desc
deriving DecidableEq, Repr

/-- `OrderDir.String()`. -/
def OrderDir.str : OrderDir → String
  | .Desc => "DESC"
  | .Asc => "ASC"

structure Join where
  joinType : JoinType
  table : String
  left : String
  right : String

structure OrderBy where
  col : String
  dir : OrderDir

structure SelectBuilder where
  distinct : Bool := false
  fields : List String := []
  fromT : String := ""
  joins : List Join := []
  where_ : List Predicate := []
  groupBy : List String := []
  having : List Predicate := []
  orderBy : List OrderBy := []
  limit : Option Int := none
  offset : Option Int := none

/-- `Select(fields...)`. -/
def Select (fields : List String) : SelectBuilder := { fields := fields }

/-- `SelectBuilder.From`. -/
def SelectBuilder.From (b : SelectBuilder) (table : String) : SelectBuilder :=
  { b with fromT := table }

/-- `SelectBuilder.Where`: appends to the existing predicate list. -/
def SelectBuilder.Where (b : SelectBuilder) (preds : List Predicate) : SelectBuilder :=
  { b with where_ := b.where_ ++ preds }

/-- `SelectBuilder.Having`: appends to the existing predicate list. -/
def SelectBuilder.Having (b : SelectBuilder) (preds : List Predicate) : SelectBuilder :=
  { b with having := b.having ++ preds }

/-- The ` JOIN ... ON ...` text appended for one entry of `b.joins`. -/
def joinClause (j : Join) : String :=
  " " ++ j.joinType.str ++ " " ++ j.table ++ " ON " ++ j.left ++ " = " ++ j.right

/-- The `writePredicates` helper of `internal/goqdsl/goqdsl.go`: render the
predicates joined by `" AND "`, appending arguments and threading the
offset. -/
def writePredicates : List Predicate → Nat → String × List Val × Nat
  | [], off => ("", [], off)
  | p :: rest, off =>
    let r := Predicate.ToSQL p off
    let r2 := writePredicates rest r.2.2
    (r.1 ++ (if rest.isEmpty then "" else " AND " ++ r2.1), r.2.1 ++ r2.2.1, r2.2.2)

/-- `SelectBuilder.Build` (positional variant): offset initialized to 1
once, threaded through WHERE, then HAVING, then LIMIT, then OFFSET. -/
def SelectBuilder.Build (b : SelectBuilder) : String × List Val :=
  let head := (if b.distinct then "SELECT DISTINCT " else "SELECT ")
    ++ String.intercalate ", " b.fields
    ++ " FROM " ++ b.fromT
    ++ String.join (b.joins.map joinClause)
  let w := writePredicates b.where_ 1
  let wtxt := if b.where_.isEmpty then "" else " WHERE " ++ w.1
  let wargs := if b.where_.isEmpty then [] else w.2.1
  let o1 := if b.where_.isEmpty then 1 else w.2.2
  let gtxt := if b.groupBy.isEmpty then "" else " GROUP BY " ++ String.intercalate ", " b.groupBy
  let h := writePredicates b.having o1
  let htxt := if b.having.isEmpty then "" else " HAVING " ++ h.1
  let hargs := if b.having.isEmpty then [] else h.2.1
  let o2 := if b.having.isEmpty then o1 else h.2.2
  let otxt := if b.orderBy.isEmpty then "" else
    " ORDER BY " ++ String.intercalate ", " (b.orderBy.map (fun o => o.col ++ " " ++ o.dir.str))
  let ltxt := match b.limit with
    | none => ""
    | some _ => " LIMIT $" ++ toString o2
  let largs : List Val := match b.limit with
    | none => []
    | some n => [Val.int n]
  let o3 := match b.limit with
    | none => o2
    | some _ => o2 + 1
  let ftxt := match b.offset with
    | none => ""
    | some _ => " OFFSET $" ++ toString o3
  let fargs : List Val := match b.offset with
    | none => []
    | some n => [Val.int n]
  (head ++ wtxt ++ gtxt ++ htxt ++ otxt ++ ltxt ++ ftxt, wargs ++ hargs ++ largs ++ fargs)

structure UpdateBuilder where
  table : String := ""
  sets : List (String × Val) := []
  where_ : List Predicate := []
  returning : List String := []

/-- `Update(table)`. -/
def Update (table : String) : UpdateBuilder := { table := table }

/-- `UpdateBuilder.Set`: appends one assignment. -/
def UpdateBuilder.Set (b : UpdateBuilder) (col : String) (val : Val) : UpdateBuilder :=
  { b with sets := b.sets ++ [(col, val)] }

/-- `UpdateBuilder.Where`: appends to the existing predicate list. -/
def UpdateBuilder.Where (b : UpdateBuilder) (preds : List Predicate) : UpdateBuilder :=
  { b with where_ := b.where_ ++ preds }

/-- `UpdateBuilder.Returning`: replaces the column list. -/
def UpdateBuilder.Returning (b : UpdateBuilder) (cols : List String) : UpdateBuilder :=
  { b with returning := cols }

/-- The `for i, s := range b.sets` loop of `UpdateBuilder.Build`: one
`col = $off` part per assignment, arguments in order, offset incremented
per assignment. -/
def setLoop : List (String × Val) → Nat → List String × List Val × Nat
  | [], off => ([], [], off)
  | (c, v) :: rest, off =>
    let r := setLoop rest (off + 1)
    ((c ++ " = $" ++ toString off) :: r.1, v :: r.2.1, r.2.2)

/-- `UpdateBuilder.Build` (positional variant, `internal/goqdsl/update.go`):
offset starts at 1, SET assignments are numbered first, then WHERE. -/
def UpdateBuilder.Build (b : UpdateBuilder) : String × List Val :=
  let s := setLoop b.sets 1
  let w := writePredicates b.where_ s.2.2
  ("UPDATE " ++ b.table ++ " SET " ++ String.intercalate ", " s.1
    ++ (if b.where_.isEmpty then "" else " WHERE " ++ w.1)
    ++ (if b.returning.isEmpty then "" else " RETURNING " ++ String.intercalate ", " b.returning),
   if b.where_.isEmpty then s.2.1 else s.2.1 ++ w.2.1)

structure InsertBuilder where
  table : String := ""
  columns : List String := []
  values : List (List Val) := []
  onConflict : String := ""
  returning : List String := []

/-- `InsertInto(table)`. -/
def InsertInto (table : String) : InsertBuilder := { table := table }

/-- `InsertBuilder.Columns`: replaces the column list. -/
def InsertBuilder.Columns (b : InsertBuilder) (cols : List String) : InsertBuilder :=
  { b with columns := cols }

/-- `InsertBuilder.Values`: appends one row. -/
def InsertBuilder.Values (b : InsertBuilder) (vals : List Val) : InsertBuilder :=
  { b with values := b.values ++ [vals] }

/-- `InsertBuilder.OnConflict`. -/
def InsertBuilder.OnConflict (b : InsertBuilder) (action : String) : InsertBuilder :=
  { b with onConflict := action }

/-- `InsertBuilder.Returning`: replaces the column list. -/
def InsertBuilder.Returning (b : InsertBuilder) (cols : List String) : InsertBuilder :=
  { b with returning := cols }

/-- Placeholders of one `VALUES` row, threading the offset. -/
def rowAux : List Val → Nat → List String × List Val × Nat
  | [], off => ([], [], off)
  | v :: rest, off =>
    let r := rowAux rest (off + 1)
    (("$" ++ toString off) :: r.1, v :: r.2.1, r.2.2)

/-- All `VALUES` rows, row-major, threading the offset. -/
def rowsAux : List (List Val) → Nat → List String × List Val × Nat
  | [], off => ([], [], off)
  | row :: rest, off =>
    let r := rowAux row off
    let r2 := rowsAux rest r.2.2
    (("(" ++ String.intercalate ", " r.1 ++ ")") :: r2.1, r.2.1 ++ r2.2.1, r2.2.2)

/-- `InsertBuilder.Build` (`insert.go`). -/
def InsertBuilder.Build (b : InsertBuilder) : String × List Val :=
  let r := rowsAux b.values 1
  ("INSERT INTO " ++ b.table
    ++ (if b.columns.isEmpty then "" else " (" ++ String.intercalate ", " b.columns ++ ")")
    ++ " VALUES " ++ String.intercalate ", " r.1
    ++ (if b.onConflict = "" then "" else " ON CONFLICT " ++ b.onConflict)
    ++ (if b.returning.isEmpty then "" else " RETURNING " ++ String.intercalate ", " b.returning),
   r.2.1)

structure DeleteBuilder where
  table : String := ""
  where_ : List Predicate := []
  returning : List String := []

/-- `DeleteFrom(table)`. -/
def DeleteFrom (table : String) : DeleteBuilder := { table := table }

/-- `DeleteBuilder.Where`: appends to the existing predicate list. -/
def DeleteBuilder.Where (b : DeleteBuilder) (preds : List Predicate) : DeleteBuilder :=
  { b with where_ := b.where_ ++ preds }

/-- `DeleteBuilder.Returning`: replaces the column list. -/
def DeleteBuilder.Returning (b : DeleteBuilder) (cols : List String) : DeleteBuilder :=
  { b with returning := cols }

/-- `DeleteBuilder.Build` (positional variant of `delete.go`). -/
def DeleteBuilder.Build (b : DeleteBuilder) : String × List Val :=
  let w := writePredicates b.where_ 1
  ("DELETE FROM " ++ b.table
    ++ (if b.where_.isEmpty then "" else " WHERE " ++ w.1)
    ++ (if b.returning.isEmpty then "" else " RETURNING " ++ String.intercalate ", " b.returning),
   if b.where_.isEmpty then [] else w.2.1)

/-!
### Positional debug inliner (`ToSQL` / `formatValue`, positional variant)

Go replaces placeholders in reverse index order (`for i := len(args)-1;
i >= 0; i--`) and each replacement is `strings.Replace(result, "$<i+1>",
val, 1)`, i.e. only the FIRST occurrence of each placeholder is
substituted.
-/

/-- `strings.ReplaceAll(s, "'", "''")` in `formatValue`: double every
single quote. -/
def quoteDouble : List Char → List Char
  | [] => []
  | c :: cs =>
    if c = '\'' then '\'' :: '\'' :: quoteDouble cs else c :: quoteDouble cs

/-- `formatValue`: SQL literal text of a bound value for debug output. -/
def formatValue : Val → String
  | .str s => "'" ++ String.mk (quoteDouble s.data) ++ "'"
  | .null => "NULL"
  | .bool true => "TRUE"
  | .bool false => "FALSE"
  | .int n => toString n

/-- Does `pat` occur at the head of `s`? -/
def leadsWith : List Char → List Char → Bool
  | [], _ => true
  | _ :: _, [] => false
  | p :: ps, c :: cs => p = c && leadsWith ps cs

/-- `strings.Replace(s, pat, rep, 1)`: replace the first occurrence of
`pat` in `s` by `rep` (no occurrence leaves `s` unchanged). -/
def replaceFirstL (s pat rep : List Char) : List Char :=
  match s with
  | [] => []
  | c :: cs =>
    if leadsWith pat (c :: cs) then rep ++ (c :: cs).drop pat.length
    else c :: replaceFirstL cs pat rep

/-- Index/value pairs of the argument list starting at index `i`. -/
def withIdx : List Val → Nat → List (Nat × Val)
  | [], _ => []
  | v :: rest, i => (i, v) :: withIdx rest (i + 1)

/-- The descending replacement loop of the positional debug `ToSQL`:
the pair list is processed in the order given (callers pass the reversed
index order, so the highest-numbered placeholder is replaced first). -/
def inlineRev : List (Nat × Val) → List Char → List Char
  | [], cs => cs
  | (i, v) :: rest, cs =>
    inlineRev rest (replaceFirstL cs (dollarChars (i + 1)) (formatValue v).data)

/-- The positional debug `ToSQL`, applied to the `(sql, args)` pair
returned by a builder's `Build`: inline every bound value, replacing
placeholders from the highest index down to `$1`. -/
def ToSQL (built : String × List Val) : String :=
  String.mk (inlineRev (withIdx built.2 0).reverse built.1.data)

end Positional

namespace Named

/-!
### Named predicates (named variant of `predicate.go`)

`ToSQL(counter *int) (string, map[string]any)` mints parameter names
`p1, p2, ...` through `nextParam`, which increments the shared counter.
The counter is modelled by explicit threading (input and output value);
the named argument map is modelled as the association list of the
insertions in the order they happen (Go map semantics: a later insertion
of the same key overwrites; the list keeps both, later entries
shadowing earlier ones under a right-biased lookup).
-/

/-- `nextParam`: increment the counter and mint `p<counter>`. -/
def nextParam (k : Nat) : String × Nat := ("p" ++ toString (k + 1), k + 1)

inductive NPredicate where
  | Raw (sql : String) (args : Option (List (String × Val)))
  | Eq (col : String) (val : Val)
  | Neq (col : String) (val : Val)
  | Gt (col : String) (val : Val)
  | Gte (col : String) (val : Val)
  | Lt (col : String) (val : Val)
  | Lte (col : String) (val : Val)
  | Like (col : String) (pattern : String)
  | ILike (col : String) (pattern : String)
  | In (col : String) (vals : List Val)
  | Between (col : String) (low : Val) (high : Val)
  | IsNull (col : String)
  | IsNotNull (col : String)
  | And (preds : List NPredicate)
  | Or (preds : List NPredicate)
  | Not (pred : NPredicate)

/-- The `IN` loop of the named `inPred.ToSQL`: mint one name per value. -/
def inLoopN : List Val → Nat → List String × List (String × Val) × Nat
  | [], k => ([], [], k)
  | v :: rest, k =>
    let n := nextParam k
    let r := inLoopN rest n.2
    (("@" ++ n.1) :: r.1, (n.1, v) :: r.2.1, r.2.2)

mutual

/-- The named `Predicate.ToSQL`: render at the given counter value,
returning the fragment, the named arguments contributed (as an
association list in insertion order), and the new counter. -/
def NPredicate.ToSQL : NPredicate → Nat → String × List (String × Val) × Nat
  | .Raw sql args, k =>
    match args with
    | none => (sql, [], k)
    | some m => (sql, m, k)
  | .Eq col v, k =>
    let n := nextParam k
    (col ++ " = @" ++ n.1, [(n.1, v)], n.2)
  | .Neq col v, k =>
    let n := nextParam k
    (col ++ " != @" ++ n.1, [(n.1, v)], n.2)
  | .Gt col v, k =>
    let n := nextParam k
    (col ++ " > @" ++ n.1, [(n.1, v)], n.2)
  | .Gte col v, k =>
    let n := nextParam k
    (col ++ " >= @" ++ n.1, [(n.1, v)], n.2)
  | .Lt col v, k =>
    let n := nextParam k
    (col ++ " < @" ++ n.1, [(n.1, v)], n.2)
  | .Lte col v, k =>
    let n := nextParam k
    (col ++ " <= @" ++ n.1, [(n.1, v)], n.2)
  | .Like col pat, k =>
    let n := nextParam k
    (col ++ " LIKE @" ++ n.1, [(n.1, Val.str pat)], n.2)
  | .ILike col pat, k =>
    let n := nextParam k
    (col ++ " ILIKE @" ++ n.1, [(n.1, Val.str pat)], n.2)
  | .In col vals, k =>
    let r := inLoopN vals k
    (col ++ " IN (" ++ String.intercalate ", " r.1 ++ ")", r.2.1, r.2.2)
  | .Between col low high, k =>
    let nl := nextParam k
    let nh := nextParam nl.2
    (col ++ " BETWEEN @" ++ nl.1 ++ " AND @" ++ nh.1,
     [(nl.1, low), (nh.1, high)], nh.2)
  | .IsNull col, k => (col ++ " IS NULL", [], k)
  | .IsNotNull col, k => (col ++ " IS NOT NULL", [], k)
  | .And ps, k => combinePredicatesN ps "AND" k
  | .Or ps, k => combinePredicatesN ps "OR" k
  | .Not p, k =>
    let r := NPredicate.ToSQL p k
    ("NOT (" ++ r.1 ++ ")", r.2.1, r.2.2)
termination_by structural p => p

/-- The named `combinePredicates`. -/
def combinePredicatesN : List NPredicate → String → Nat → String × List (String × Val) × Nat
  | [], _, k => ("", [], k)
  | [p], _, k => NPredicate.ToSQL p k
  | p :: q :: rest, op, k =>
    let r := NPredicate.ToSQL p k
    let r2 := combineAuxN (q :: rest) r.2.2
    ("(" ++ String.intercalate (" " ++ op ++ " ") (r.1 :: r2.1) ++ ")",
     r.2.1 ++ r2.2.1, r2.2.2)
termination_by structural ps => ps

/-- The child loop of the named `combinePredicates`; `mergeArgs` on the
map is modelled by list concatenation in merge order. -/
def combineAuxN : List NPredicate → Nat → List String × List (String × Val) × Nat
  | [], k => ([], [], k)
  | p :: rest, k =>
    let r := NPredicate.ToSQL p k
    let r2 := combineAuxN rest r.2.2
    (r.1 :: r2.1, r.2.1 ++ r2.2.1, r2.2.2)
termination_by structural ps => ps

end

/-- The named `writePredicates` of `builder.go`: join with `" AND "`,
merging arguments in render order and threading the counter. -/
def writePredicatesN : List NPredicate → Nat → String × List (String × Val) × Nat
  | [], k => ("", [], k)
  | p :: rest, k =>
    let r := NPredicate.ToSQL p k
    let r2 := writePredicatesN rest r.2.2
    (r.1 ++ (if rest.isEmpty then "" else " AND " ++ r2.1), r.2.1 ++ r2.2.1, r2.2.2)

/-!
### Named statement builders (`builder.go`, named halves of `delete.go`
and `goqdsl.go`)
-/

structure SelectBuilder where
  distinct : Bool := false
  fields : List String := []
  fromT : String := ""
  joins : List Positional.Join := []
  where_ : List NPredicate := []
  groupBy : List String := []
  having : List NPredicate := []
  orderBy : List Positional.OrderBy := []
  limit : Option Int := none
  offset : Option Int := none

/-- `SelectBuilder.Build` (named variant, `builder.go`): counter starts
at 0, threaded through WHERE, then HAVING, then LIMIT, then OFFSET. -/
def SelectBuilder.Build (b : SelectBuilder) : String × List (String × Val) :=
  let head := (if b.distinct then "SELECT DISTINCT " else "SELECT ")
    ++ String.intercalate ", " b.fields
    ++ " FROM " ++ b.fromT
    ++ String.join (b.joins.map Positional.joinClause)
  let w := writePredicatesN b.where_ 0
  let wtxt := if b.where_.isEmpty then "" else " WHERE " ++ w.1
  let wargs := if b.where_.isEmpty then [] else w.2.1
  let k1 := if b.where_.isEmpty then 0 else w.2.2
  let gtxt := if b.groupBy.isEmpty then "" else " GROUP BY " ++ String.intercalate ", " b.groupBy
  let h := writePredicatesN b.having k1
  let htxt := if b.having.isEmpty then "" else " HAVING " ++ h.1
  let hargs := if b.having.isEmpty then [] else h.2.1
  let k2 := if b.having.isEmpty then k1 else h.2.2
  let otxt := if b.orderBy.isEmpty then "" else
    " ORDER BY " ++ String.intercalate ", " (b.orderBy.map (fun o => o.col ++ " " ++ o.dir.str))
  let ln := nextParam k2
  let ltxt := match b.limit with
    | none => ""
    | some _ => " LIMIT @" ++ ln.1
  let largs : List (String × Val) := match b.limit with
    | none => []
    | some n => [(ln.1, Val.int n)]
  let k3 := match b.limit with
    | none => k2
    | some _ => ln.2
  let fn := nextParam k3
  let ftxt := match b.offset with
    | none => ""
    | some _ => " OFFSET @" ++ fn.1
  let fargs : List (String × Val) := match b.offset with
    | none => []
    | some n => [(fn.1, Val.int n)]
  (head ++ wtxt ++ gtxt ++ htxt ++ otxt ++ ltxt ++ ftxt, wargs ++ hargs ++ largs ++ fargs)

structure UpdateBuilder where
  table : String := ""
  sets : List (String × Val) := []
  where_ : List NPredicate := []
  returning : List String := []

/-- The `for i, s := range b.sets` loop of the named
`UpdateBuilder.Build`: mint `p<k+1>, ...` and emit `col = @p<k+1>`. -/
def setLoopN : List (String × Val) → Nat → List String × List (String × Val) × Nat
  | [], k => ([], [], k)
  | (c, v) :: rest, k =>
    let n := nextParam k
    let r := setLoopN rest n.2
    ((c ++ " = @" ++ n.1) :: r.1, (n.1, v) :: r.2.1, r.2.2)

/-- `UpdateBuilder.Build` (named variant, `delete.go`): counter starts at
0, SET assignments are numbered first, then WHERE. -/
def UpdateBuilder.Build (b : UpdateBuilder) : String × List (String × Val) :=
  let s := setLoopN b.sets 0
  let w := writePredicatesN b.where_ s.2.2
  ("UPDATE " ++ b.table ++ " SET " ++ String.intercalate ", " s.1
    ++ (if b.where_.isEmpty then "" else " WHERE " ++ w.1)
    ++ (if b.returning.isEmpty then "" else " RETURNING " ++ String.intercalate ", " b.returning),
   if b.where_.isEmpty then s.2.1 else s.2.1 ++ w.2.1)

/-!
### The named-to-positional bridge (`namedToPositional` /
`NamedToPositional`)

Go applies `namedParamRe.ReplaceAllStringFunc` with the pattern
at-sign-word-characters to the query text, keeping a `seen` map from
name to assigned position and a running position counter; a name seen
before is rewritten to its existing position, a new name takes the next
position, and `args = append(args, named[name])` appends the mapping's
value for the name — which is Go's zero value `nil` (modelled `Val.null`)
if the name has no entry.  When `len(named) == 0` the text is returned
unchanged.  `n2pA` is the replacement scan as a character state machine:
the `Option (List Char)` argument buffers the word characters after an
unconsumed `'@'`.
-/

/-- Go regexp `\w`: ASCII letters, digits and underscore. -/
def isWord (c : Char) : Bool := c.isAlphanum || c = '_'

/-- Character-level scan of `namedParamRe.ReplaceAllStringFunc` in
`namedToPositional`: rewrite `@name` markers to `$N`, assigning each
distinct name the next position at its first occurrence, and collect
the mapped values of new names in scan order. -/
def n2pA (named : List (String × Val)) :
    List Char → Option (List Char) → List (String × Nat) → Nat → List Char × List Val
  | [], none, _, _ => ([], [])
  | [], some buf, seen, k =>
    if buf = [] then (['@'], [])
    else
      match alook (String.mk buf) seen with
      | some pos => (dollarChars pos, [])
      | none => (dollarChars (k + 1), [(alook (String.mk buf) named).getD Val.null])
  | c :: cs, none, seen, k =>
    if c = '@' then n2pA named cs (some []) seen k
    else
      let r := n2pA named cs none seen k
      (c :: r.1, r.2)
  | c :: cs, some buf, seen, k =>
    if isWord c then n2pA named cs (some (buf ++ [c])) seen k
    else if buf = [] then
      (if c = '@' then
        let r := n2pA named cs (some []) seen k
        ('@' :: r.1, r.2)
      else
        let r := n2pA named cs none seen k
        ('@' :: c :: r.1, r.2))
    else
      match alook (String.mk buf) seen with
      | some pos =>
        (if c = '@' then
          let r := n2pA named cs (some []) seen k
          (dollarChars pos ++ r.1, r.2)
        else
          let r := n2pA named cs none seen k
          (dollarChars pos ++ c :: r.1, r.2))
      | none =>
        (if c = '@' then
          let r := n2pA named cs (some []) ((String.mk buf, k + 1) :: seen) (k + 1)
          (dollarChars (k + 1) ++ r.1,
           (alook (String.mk buf) named).getD Val.null :: r.2)
        else
          let r := n2pA named cs none ((String.mk buf, k + 1) :: seen) (k + 1)
          (dollarChars (k + 1) ++ c :: r.1,
           (alook (String.mk buf) named).getD Val.null :: r.2))

/-- `namedToPositional` (= the exported `NamedToPositional`): convert a
SQL string with `@name` placeholders to positional `$1, $2, ...` form.
An empty mapping returns the query unchanged with no arguments. -/
def namedToPositional (query : String) (named : List (String × Val)) :
    String × List Val :=
  if named.length = 0 then (query, [])
  else
    let r := n2pA named query.data none [] 0
    (String.mk r.1, r.2)

/-- Declarative tokenization of text scanned by the bridge: literal
characters and `@name` markers. -/
inductive NTok where
  | lit : Char → NTok
  | nm : String → NTok
deriving DecidableEq, Repr

/-- Tokenizer for `@name` markers, same state machine as `n2pA` but
producing tokens. -/
def nToksA : List Char → Option (List Char) → List NTok
  | [], none => []
  | [], some buf => if buf = [] then [.lit '@'] else [.nm (String.mk buf)]
  | c :: cs, none =>
    if c = '@' then nToksA cs (some []) else .lit c :: nToksA cs none
  | c :: cs, some buf =>
    if isWord c then nToksA cs (some (buf ++ [c]))
    else if buf = [] then
      (if c = '@' then .lit '@' :: nToksA cs (some [])
       else .lit '@' :: .lit c :: nToksA cs none)
    else
      (if c = '@' then .nm (String.mk buf) :: nToksA cs (some [])
       else .nm (String.mk buf) :: .lit c :: nToksA cs none)

/-- Tokens of a query text. -/
def nToks (cs : List Char) : List NTok := nToksA cs none

/-- The marker names of a token list, in textual order, with repeats. -/
def markerNames : List NTok → List String
  | [] => []
  | .lit _ :: rest => markerNames rest
  | .nm s :: rest => s :: markerNames rest

/-- First-occurrence order of the names not already in `P`. -/
def newNames : List String → List String → List String
  | _, [] => []
  | P, s :: rest =>
    if s ∈ P then newNames P rest else s :: newNames (P ++ [s]) rest

/-- Index of a name in a list (first match). -/
def posOf (s : String) : List String → Option Nat
  | [] => none
  | x :: xs => if x = s then some 0 else (posOf s xs).map (· + 1)

/-- Declarative rendering of one bridge token: a name is rewritten to
the position of its first occurrence (1-based) in the given order. -/
def renderN (order : List String) : NTok → List Char
  | .lit c => [c]
  | .nm s => dollarChars ((posOf s order).getD 0 + 1)

/-- The `seen` map of the bridge after the names of `P` have been
assigned positions `1, ..., |P|` in order (most recent first, as the
scanner conses new entries on). -/
def mkSeenAux : List String → Nat → List (String × Nat)
  | [], _ => []
  | s :: rest, i => mkSeenAux rest (i + 1) ++ [(s, i + 1)]

/-- `seen` map corresponding to assigned-name list `P`. -/
def mkSeen (P : List String) : List (String × Nat) := mkSeenAux P 0


/-!
## Declarative specifications

Independent formulations of what the threading loops compute, used on
the right-hand side of the characterization theorems below.
-/

end Named

namespace Positional

/-- Fragments of a predicate list, each child rendered at the cursor
returned by its predecessor. -/
def fragsOf : List Predicate → Nat → List String
  | [], _ => []
  | p :: rest, off => (p.ToSQL off).1 :: fragsOf rest (p.ToSQL off).2.2

/-- Argument values of a predicate list, concatenated in child order. -/
def argsOf : List Predicate → Nat → List Val
  | [], _ => []
  | p :: rest, off => (p.ToSQL off).2.1 ++ argsOf rest (p.ToSQL off).2.2

/-- Cursor left after rendering a predicate list (the last child's
returned cursor). -/
def cursorAfter : List Predicate → Nat → Nat
  | [], off => off
  | p :: rest, off => cursorAfter rest (p.ToSQL off).2.2

/-- Per-child argument counts of a predicate list. -/
def argLens : List Predicate → Nat → List Nat
  | [], _ => []
  | p :: rest, off => (p.ToSQL off).2.1.length :: argLens rest (p.ToSQL off).2.2

/-- Case-split specification of `combinePredicates` as the spec states
it: empty renders empty and consumes nothing, a singleton renders as the
child, two or more render in order, joined and parenthesized. -/
def combineSpec (ps : List Predicate) (op : String) (off : Nat) :
    String × List Val × Nat :=
  match ps with
  | [] => ("", [], off)
  | [p] => p.ToSQL off
  | _ =>
    ("(" ++ String.intercalate (" " ++ op ++ " ") (fragsOf ps off) ++ ")",
     argsOf ps off, cursorAfter ps off)

/-- Declarative SET parts of a positional UPDATE: assignment `i` (0-based)
is rendered as `col = $(off+i)`. -/
def setParts : List (String × Val) → Nat → List String
  | [], _ => []
  | (c, _) :: rest, off => (c ++ " = $" ++ toString off) :: setParts rest (off + 1)

/-- Arguments contributed by an optional LIMIT/OFFSET value. -/
def optArgs : Option Int → List Val
  | none => []
  | some n => [Val.int n]

end Positional

namespace Named

/-- Declarative SET parts of a named UPDATE: assignment `i` (0-based,
counter starting at `k`) is rendered as `col = @p(k+i+1)`. -/
def setPartsN : List (String × Val) → Nat → List String
  | [], _ => []
  | (c, _) :: rest, k => (c ++ " = @p" ++ toString (k + 1)) :: setPartsN rest (k + 1)

/-- Declarative named SET arguments: `(p(k+i+1), value)` in order. -/
def setArgsN : List (String × Val) → Nat → List (String × Val)
  | [], _ => []
  | (_, v) :: rest, k => ("p" ++ toString (k + 1), v) :: setArgsN rest (k + 1)

end Named

/-!
## Theorems
-/

namespace Positional

theorem setLoop_spec (ss : List (String × Val)) :
    ∀ off, setLoop ss off = (setParts ss off, ss.map Prod.snd, off + ss.length) := by
  induction ss with
  | nil => intro off; simp [setLoop, setParts]
  | cons s rest ih =>
    intro off
    obtain ⟨c, v⟩ := s
    simp [setLoop, setParts, ih (off + 1)]
    omega

end Positional

namespace Named

theorem setLoopN_spec (ss : List (String × Val)) :
    ∀ k, setLoopN ss k = (setPartsN ss k, setArgsN ss k, k + ss.length) := by
  induction ss with
  | nil => intro k; simp [setLoopN, setPartsN, setArgsN]
  | cons s rest ih =>
    intro k
    obtain ⟨c, v⟩ := s
    simp [setLoopN, setPartsN, setArgsN, nextParam, ih (k + 1)]
    have h : " = @" ++ "p" = " = @p" := rfl
    refine ⟨?_, by omega⟩
    rw [← String.append_assoc, String.append_assoc c, h]

end Named

/-- C2 counterexample: for `Update("users").Set("name","Bob").Where(Eq("uuid","abc"))`
the built statement numbers the SET value first (`$1`) and the WHERE
value second (`$2`), and the argument order `[Bob, abc]` differs from the
claimed WHERE-before-SET order `[abc, Bob]`. -/
theorem update_set_before_where_counterexample :
    (((Positional.Update "users").Set "name" (Val.str "Bob")).Where
        [Positional.Predicate.Eq "uuid" (Val.str "abc")]).Build
      = ("UPDATE users SET name = $1 WHERE uuid = $2",
         [Val.str "Bob", Val.str "abc"])
    ∧ ([Val.str "Bob", Val.str "abc"] : List Val) ≠ [Val.str "abc", Val.str "Bob"] := by
  constructor
  · decide
  · decide

/-- C2 (amended): within one statement the cursor is initialized exactly
once (position 1 positional, counter 0 named) and threaded in a fixed
clause order; for SELECT the order is WHERE, then HAVING, then LIMIT,
then OFFSET; for UPDATE the SET assignments come first and the WHERE
predicates continue at the cursor the SET loop left, so SET values are
numbered and collected before WHERE values. -/
theorem cursor_threading_amended :
    (∀ b : Positional.SelectBuilder,
      (b.Build).2
        = (Positional.writePredicates b.where_ 1).2.1
          ++ (Positional.writePredicates b.having
                (Positional.writePredicates b.where_ 1).2.2).2.1
          ++ Positional.optArgs b.limit ++ Positional.optArgs b.offset)
    ∧ (∀ b : Positional.UpdateBuilder,
      b.Build
        = ("UPDATE " ++ b.table ++ " SET "
            ++ String.intercalate ", " (Positional.setParts b.sets 1)
            ++ (if b.where_.isEmpty then "" else
                " WHERE " ++ (Positional.writePredicates b.where_ (1 + b.sets.length)).1)
            ++ (if b.returning.isEmpty then "" else
                " RETURNING " ++ String.intercalate ", " b.returning),
           b.sets.map Prod.snd
            ++ (Positional.writePredicates b.where_ (1 + b.sets.length)).2.1))
    ∧ (∀ b : Named.UpdateBuilder,
      b.Build
        = ("UPDATE " ++ b.table ++ " SET "
            ++ String.intercalate ", " (Named.setPartsN b.sets 0)
            ++ (if b.where_.isEmpty then "" else
                " WHERE " ++ (Named.writePredicatesN b.where_ b.sets.length).1)
            ++ (if b.returning.isEmpty then "" else
                " RETURNING " ++ String.intercalate ", " b.returning),
           Named.setArgsN b.sets 0
            ++ (Named.writePredicatesN b.where_ b.sets.length).2.1)) := by
  refine ⟨fun b => ?_, fun b => ?_, fun b => ?_⟩
  · cases hw : b.where_ <;> cases hh : b.having <;>
      cases hl : b.limit <;> cases ho : b.offset <;>
      simp [Positional.SelectBuilder.Build, hw, hh, hl, ho,
        Positional.writePredicates, Positional.optArgs]
  · have hs := Positional.setLoop_spec b.sets 1
    cases hw : b.where_ with
    | nil =>
      simp [Positional.UpdateBuilder.Build, hw, hs, Positional.writePredicates,
        Nat.add_comm]
    | cons p rest =>
      simp [Positional.UpdateBuilder.Build, hw, hs, Nat.add_comm]
  · have hs := Named.setLoopN_spec b.sets 0
    cases hw : b.where_ with
    | nil =>
      simp [Named.UpdateBuilder.Build, hw, hs, Named.writePredicatesN]
    | cons p rest =>
      simp [Named.UpdateBuilder.Build, hw, hs]

/-- C8: `Build` is a pure function of the builder value — the embedding
threads all cursor state locally inside `Build` (mirroring the Go code,
which keeps `offset`/`counter` as function-locals and never writes a
builder field), so two calls on the same unmutated builder give
identical SQL text and argument collections for every builder kind in
both variants. -/
theorem build_idempotent :
    (∀ b : Positional.SelectBuilder, b.Build = b.Build)
    ∧ (∀ b : Positional.UpdateBuilder, b.Build = b.Build)
    ∧ (∀ b : Positional.InsertBuilder, b.Build = b.Build)
    ∧ (∀ b : Positional.DeleteBuilder, b.Build = b.Build)
    ∧ (∀ b : Named.SelectBuilder, b.Build = b.Build)
    ∧ (∀ b : Named.UpdateBuilder, b.Build = b.Build) :=
  ⟨fun _ => rfl, fun _ => rfl, fun _ => rfl, fun _ => rfl, fun _ => rfl, fun _ => rfl⟩

/-- C10: `Where` (and `Values`) accumulate — a second call appends, so
predicates/rows from every call survive into `Build` — while `Columns`
and `Returning` replace the previously supplied list entirely. -/
theorem chain_accumulation_vs_replacement :
    (∀ (b : Positional.SelectBuilder) (ps1 ps2 : List Positional.Predicate),
      (b.Where ps1).Where ps2 = b.Where (ps1 ++ ps2))
    ∧ (∀ (b : Positional.SelectBuilder) (ps1 ps2 : List Positional.Predicate),
      ((b.Where ps1).Where ps2).Build = (b.Where (ps1 ++ ps2)).Build)
    ∧ (∀ (b : Positional.InsertBuilder) (r1 r2 : List Val),
      ((b.Values r1).Values r2).values = b.values ++ [r1, r2])
    ∧ (∀ (b : Positional.InsertBuilder) (c1 c2 : List String),
      (b.Columns c1).Columns c2 = b.Columns c2)
    ∧ (∀ (b : Positional.InsertBuilder) (c1 c2 : List String),
      ((b.Columns c1).Columns c2).Build = (b.Columns c2).Build)
    ∧ (∀ (b : Positional.InsertBuilder) (c1 c2 : List String),
      (b.Returning c1).Returning c2 = b.Returning c2) := by
  refine ⟨fun b ps1 ps2 => ?_, fun b ps1 ps2 => ?_, fun b r1 r2 => ?_,
    fun b c1 c2 => rfl, fun b c1 c2 => rfl, fun b c1 c2 => rfl⟩
  · simp [Positional.SelectBuilder.Where]
  · simp [Positional.SelectBuilder.Where]
  · simp [Positional.InsertBuilder.Values]

namespace Positional

mutual

theorem toSQL_consume : ∀ (p : Predicate) (off : Nat),
    (p.ToSQL off).2.2 = off + (p.ToSQL off).2.1.length
  | .Raw s args, off => by simp [Predicate.ToSQL]
  | .Eq col v, off => by simp [Predicate.ToSQL]
  | .Neq col v, off => by simp [Predicate.ToSQL]
  | .Gt col v, off => by simp [Predicate.ToSQL]
  | .Gte col v, off => by simp [Predicate.ToSQL]
  | .Lt col v, off => by simp [Predicate.ToSQL]
  | .Lte col v, off => by simp [Predicate.ToSQL]
  | .Like col pat, off => by simp [Predicate.ToSQL]
  | .ILike col pat, off => by simp [Predicate.ToSQL]
  | .In col vals, off => by simp [Predicate.ToSQL]
  | .Between col low high, off => by simp [Predicate.ToSQL]
  | .IsNull col, off => by simp [Predicate.ToSQL]
  | .IsNotNull col, off => by simp [Predicate.ToSQL]
  | .And ps, off => by
    simpa [Predicate.ToSQL] using combinePredicates_consume ps "AND" off
  | .Or ps, off => by
    simpa [Predicate.ToSQL] using combinePredicates_consume ps "OR" off
  | .Not p, off => by
    simpa [Predicate.ToSQL] using toSQL_consume p off
termination_by structural p => p

theorem combinePredicates_consume : ∀ (ps : List Predicate) (op : String) (off : Nat),
    (combinePredicates ps op off).2.2 = off + (combinePredicates ps op off).2.1.length
  | [], op, off => by simp [combinePredicates]
  | [p], op, off => by simpa [combinePredicates] using toSQL_consume p off
  | p :: q :: rest, op, off => by
    have h1 := toSQL_consume p off
    have h2 := combineAux_consume (q :: rest) (p.ToSQL off).2.2
    simp [combinePredicates]
    omega
termination_by structural ps => ps

theorem combineAux_consume : ∀ (ps : List Predicate) (off : Nat),
    (combineAux ps off).2.2 = off + (combineAux ps off).2.1.length
  | [], off => by simp [combineAux]
  | p :: rest, off => by
    have h1 := toSQL_consume p off
    have h2 := combineAux_consume rest (p.ToSQL off).2.2
    simp [combineAux]
    omega
termination_by structural ps => ps

end

end Positional

/-- C9: positional rendering of every public predicate constructor
returns a new offset equal to the starting offset plus the number of
argument values it returns — it consumes exactly as many placeholder
slots as values it contributes — and `IsNull`/`IsNotNull` contribute no
values and leave the offset unchanged. -/
theorem placeholder_consumption (p : Positional.Predicate) (col : String) (off : Nat) :
    ((p.ToSQL off).2.2 = off + (p.ToSQL off).2.1.length)
    ∧ ((Positional.Predicate.IsNull col).ToSQL off = (col ++ " IS NULL", [], off))
    ∧ ((Positional.Predicate.IsNotNull col).ToSQL off = (col ++ " IS NOT NULL", [], off)) :=
  ⟨Positional.toSQL_consume p off, rfl, rfl⟩

namespace Positional

theorem combineAux_eq (ps : List Predicate) :
    ∀ off, combineAux ps off = (fragsOf ps off, argsOf ps off, cursorAfter ps off) := by
  induction ps with
  | nil => intro off; simp [combineAux, fragsOf, argsOf, cursorAfter]
  | cons p rest ih =>
    intro off
    simp [combineAux, fragsOf, argsOf, cursorAfter, ih]

theorem argsOf_length (ps : List Predicate) :
    ∀ off, (argsOf ps off).length = (argLens ps off).sum := by
  induction ps with
  | nil => intro off; simp [argsOf, argLens]
  | cons p rest ih =>
    intro off
    simp [argsOf, argLens, ih]

end Positional

/-- C5: rendering `And(ps)`/`Or(ps)` at cursor `off` renders the empty
string and consumes nothing when `ps` is empty, renders exactly as the
single child with no added parentheses when `ps` is a singleton, and for
two or more children renders each child in order (each receiving the
cursor its predecessor returned), joins the fragments with the operator
and wraps them in one pair of parentheses, contributing the children's
values concatenated in child order — their total count the sum over the
children — and returning the last child's cursor. -/
theorem combine_and_or_spec (ps : List Positional.Predicate) (off : Nat) :
    ((Positional.Predicate.And ps).ToSQL off = Positional.combineSpec ps "AND" off)
    ∧ ((Positional.Predicate.Or ps).ToSQL off = Positional.combineSpec ps "OR" off)
    ∧ ((Positional.Predicate.And ps).ToSQL off).2.1.length
        = (Positional.argLens ps off).sum := by
  have hcomb : ∀ op, Positional.combinePredicates ps op off
      = Positional.combineSpec ps op off := by
    intro op
    match ps with
    | [] => rfl
    | [p] => rfl
    | p :: q :: rest =>
      simp [Positional.combinePredicates, Positional.combineSpec,
        Positional.combineAux_eq, Positional.fragsOf, Positional.argsOf,
        Positional.cursorAfter]
  have hargs : ∀ op, (Positional.combineSpec ps op off).2.1.length
      = (Positional.argLens ps off).sum := by
    intro op
    match ps with
    | [] => simp [Positional.combineSpec, Positional.argLens]
    | [p] => simp [Positional.combineSpec, Positional.argLens]
    | p :: q :: rest =>
      simp [Positional.combineSpec, Positional.argsOf_length]
  refine ⟨?_, ?_, ?_⟩
  · simpa [Positional.Predicate.ToSQL] using hcomb "AND"
  · simpa [Positional.Predicate.ToSQL] using hcomb "OR"
  · have h : (Positional.Predicate.And ps).ToSQL off
        = Positional.combineSpec ps "AND" off := by
      simpa [Positional.Predicate.ToSQL] using hcomb "AND"
    rw [h]
    exact hargs "AND"

namespace Positional

theorem shiftA_eq_tokens (off : Nat) :
    ∀ (cs : List Char) (st : Option (List Char)),
      shiftA off cs st = cmap (renderD off) (dToksA cs st) := by
  intro cs
  induction cs with
  | nil =>
    intro st
    match st with
    | none => simp [shiftA, dToksA, cmap]
    | some ds =>
      by_cases h : ds = [] <;>
        simp [shiftA, dToksA, cmap, flushD, renderD, h]
  | cons c cs ih =>
    intro st
    match st with
    | none =>
      by_cases h : c = '$' <;> simp [shiftA, dToksA, cmap, renderD, h, ih]
    | some ds =>
      by_cases hd : c.isDigit
      · simp [shiftA, dToksA, hd, ih]
      · by_cases hds : ds = [] <;> by_cases h : c = '$' <;>
          simp [shiftA, dToksA, cmap, flushD, renderD, hd, hds, h, ih]

end Positional

/-- C3: rendering a positional `Raw` predicate at offset `c ≥ 1` rewrites
the fragment exactly token-wise — every `$n` marker becomes
`$(n + c - 1)`, so two occurrences of the same original marker resolve to
the same shifted number, and all other characters are kept — and returns
exactly the supplied argument list and the offset `c` plus its length. -/
theorem rawPred_shift_spec (s : String) (vs : List Val) (c : Nat) (h : 1 ≤ c) :
    (Positional.Predicate.Raw s vs).ToSQL c
      = (String.mk (cmap (Positional.renderD c) (Positional.dToks s.data)),
         vs, c + vs.length) := by
  simp [Positional.Predicate.ToSQL, Positional.dToks, Positional.shiftA_eq_tokens]

/-- Witness for C3 at the repository's own test case
`Raw("(sender_id = $1 OR receiver_id = $1)", 42).ToSQL(3)`: both `$1`
occurrences resolve to `$3`, the argument list is `[42]`, the returned
offset is 4. -/
theorem rawPred_shift_spec_witness :
    (Positional.Predicate.Raw "(sender_id = $1 OR receiver_id = $1)" [Val.int 42]).ToSQL 3
      = ("(sender_id = $3 OR receiver_id = $3)", [Val.int 42], 4) := by
  have h := rawPred_shift_spec "(sender_id = $1 OR receiver_id = $1)" [Val.int 42] 3
    (by norm_num)
  rw [h]
  decide

namespace Positional

/-- No `$<digit>` sequence occurs in the fragment: every `'$'` is
followed by a non-digit or is the last character, so the regexp of
`rawPred.ToSQL` has nothing to match. -/
def noMark : List Char → Bool
  | [] => true
  | c :: rest =>
    if c = '$' then
      (match rest with
       | [] => true
       | d :: _ => !d.isDigit && noMark rest)
    else noMark rest

theorem shiftA_someNil (off : Nat) (cs : List Char)
    (h : cs = [] ∨ ∃ c cs', cs = c :: cs' ∧ c.isDigit = false) :
    shiftA off cs (some []) = '$' :: shiftA off cs none := by
  rcases h with h | ⟨c, cs', rfl, hc⟩
  · subst h; simp [shiftA, flushD]
  · by_cases hd : c = '$'
    · subst hd; simp [shiftA, flushD, hc]
    · simp [shiftA, flushD, hc, hd]

theorem shiftA_noMark (off : Nat) :
    ∀ cs : List Char, noMark cs = true → shiftA off cs none = cs := by
  intro cs
  induction cs with
  | nil => intro _; simp [shiftA]
  | cons c rest ih =>
    intro h
    by_cases hc : c = '$'
    · subst hc
      rcases rest with _ | ⟨d, rest'⟩
      · simp [shiftA, flushD]
      · have h2 : (!d.isDigit && noMark (d :: rest')) = true := h
        simp only [Bool.and_eq_true, Bool.not_eq_true'] at h2
        have h1 : shiftA off ('$' :: d :: rest') none
            = shiftA off (d :: rest') (some []) := by simp [shiftA]
        rw [h1, shiftA_someNil off (d :: rest') (Or.inr ⟨d, rest', rfl, h2.1⟩), ih h2.2]
    · have h2 : noMark rest = true := by
        rw [noMark.eq_def] at h
        simpa [hc] using h
      simp [shiftA, hc, ih h2]

end Positional

/-- C6 counterexample: the fragment `"x = $y"` has a marker-like `$y`
that is not a valid positional index, yet rendering does not fail — the
`ToSQL` signature has no error channel at all — and silently returns the
fragment with `$y` left verbatim. -/
theorem raw_malformed_marker_counterexample :
    (Positional.Predicate.Raw "x = $y" [Val.int 1]).ToSQL 5
      = ("x = $y", [Val.int 1], 6) := by
  decide

/-- C6 (amended): rendering a `Raw` predicate can never fail — the Go
`ToSQL` signature has no error result and the `strconv.Atoi` error is
discarded.  A `$` not followed by a digit is simply not a marker: a
fragment all of whose `$` signs lack a following digit is returned
verbatim, with the arguments passed through and the offset advanced by
their count. -/
theorem raw_malformed_marker_amended (s : String) (vs : List Val) (c : Nat)
    (h : Positional.noMark s.data = true) :
    (Positional.Predicate.Raw s vs).ToSQL c = (s, vs, c + vs.length) := by
  simp [Positional.Predicate.ToSQL, Positional.shiftA_noMark c s.data h]

/-- Witness for C6 (amended) on a fragment whose `$` signs are all
followed by non-digits. -/
theorem raw_malformed_marker_witness :
    (Positional.Predicate.Raw "a = $x OR b = $" [Val.int 7]).ToSQL 4
      = ("a = $x OR b = $", [Val.int 7], 5) :=
  raw_malformed_marker_amended "a = $x OR b = $" [Val.int 7] 4 (by decide)

namespace Positional

/-- Declarative per-character quote doubling. -/
def dblQuote (c : Char) : List Char :=
  if c = '\'' then ['\'', '\''] else [c]

theorem quoteDouble_eq_cmap : ∀ cs : List Char, quoteDouble cs = cmap dblQuote cs := by
  intro cs
  induction cs with
  | nil => rfl
  | cons c rest ih =>
    by_cases h : c = '\'' <;> simp [quoteDouble, cmap, dblQuote, h, ih]

theorem withIdx_append (v : Val) : ∀ (xs : List Val) (i : Nat),
    withIdx (xs ++ [v]) i = withIdx xs i ++ [(i + xs.length, v)] := by
  intro xs
  induction xs with
  | nil => intro i; simp [withIdx]
  | cons x rest ih =>
    intro i
    simp [withIdx, ih (i + 1)]
    omega

end Positional

/-- C7 counterexample: for a built statement whose Raw predicate repeats
the marker `$1`, the positional debug inliner replaces only the FIRST
occurrence of `$1` (Go `strings.Replace(result, placeholder, val, 1)`),
leaving the second occurrence verbatim — not every occurrence as
claimed. -/
theorem debug_inliner_counterexample :
    Positional.ToSQL ((((Positional.Select ["*"]).From "t").Where
        [Positional.Predicate.Raw "(a = $1 OR b = $1)" [Val.int 42]]).Build)
      = "SELECT * FROM t WHERE (a = 42 OR b = $1)"
    ∧ ("SELECT * FROM t WHERE (a = 42 OR b = $1)" : String)
        ≠ "SELECT * FROM t WHERE (a = 42 OR b = 42)" := by
  constructor
  · decide
  · decide

/-- C7 (amended): the positional debug inliner substitutes bound values
from the highest-numbered placeholder down to the lowest (so `$1` never
corrupts `$10`), but each substitution replaces only the FIRST occurrence
of its placeholder; a placeholder repeated via a Raw fragment keeps its
later occurrences unreplaced.  Values are inlined as SQL literals:
strings wrapped in exactly one pair of single quotes with each embedded
quote doubled, nil as NULL, booleans as TRUE/FALSE, integers in their
default textual form; `Eq("name","O'Brien")` inlines as
`name = 'O''Brien'`. -/
theorem debug_inliner_amended :
    (∀ (q : String) (args : List Val) (v : Val),
      Positional.ToSQL (q, args ++ [v])
        = Positional.ToSQL
            (String.mk (Positional.replaceFirstL q.data
              (dollarChars (args.length + 1)) (Positional.formatValue v).data),
             args))
    ∧ (∀ s : String,
      Positional.formatValue (Val.str s)
        = String.mk ('\'' :: (cmap Positional.dblQuote s.data ++ ['\''])))
    ∧ Positional.formatValue Val.null = "NULL"
    ∧ Positional.formatValue (Val.bool true) = "TRUE"
    ∧ Positional.formatValue (Val.bool false) = "FALSE"
    ∧ (∀ n : Int, Positional.formatValue (Val.int n) = toString n)
    ∧ Positional.ToSQL ((((Positional.Select ["*"]).From "t").Where
          [Positional.Predicate.Eq "name" (Val.str "O'Brien")]).Build)
        = "SELECT * FROM t WHERE name = 'O''Brien'" := by
  refine ⟨fun q args v => ?_, fun s => ?_, rfl, rfl, rfl, fun n => rfl, by decide⟩
  · simp [Positional.ToSQL, Positional.withIdx_append, Positional.inlineRev]
  · simp [Positional.formatValue, Positional.quoteDouble_eq_cmap]
    constructor

namespace Named

theorem posOf_eq_none (s : String) :
    ∀ P : List String, posOf s P = none ↔ s ∉ P := by
  intro P
  induction P with
  | nil => simp [posOf]
  | cons x xs ih =>
    by_cases h : x = s
    · subst h
      simp [posOf]
    · simp only [posOf, if_neg h, Option.map_eq_none', ih, List.mem_cons]
      constructor
      · rintro hs (rfl | hmem)
        · exact h rfl
        · exact hs hmem
      · intro hs hmem
        exact hs (Or.inr hmem)

theorem posOf_append_left (s : String) :
    ∀ (P Q : List String) (j : Nat), posOf s P = some j → posOf s (P ++ Q) = some j := by
  intro P
  induction P with
  | nil => intro Q j h; simp [posOf] at h
  | cons x xs ih =>
    intro Q j h
    by_cases hx : x = s
    · subst hx
      simp [posOf] at h ⊢
      exact h
    · simp [posOf, hx] at h ⊢
      obtain ⟨a, ha, rfl⟩ := h
      exact ⟨a, ih Q a ha, rfl⟩

theorem posOf_append_self (s : String) :
    ∀ (P Q : List String), s ∉ P → posOf s (P ++ s :: Q) = some P.length := by
  intro P
  induction P with
  | nil => intro Q _; simp [posOf]
  | cons x xs ih =>
    intro Q h
    have hx : ¬(x = s) := by
      intro hx; exact h (hx ▸ List.mem_cons_self x xs)
    have hs : s ∉ xs := fun hs => h (List.mem_cons_of_mem x hs)
    simp [posOf, hx, ih Q hs]

theorem mkSeenAux_append (s : String) :
    ∀ (P : List String) (i : Nat),
      mkSeenAux (P ++ [s]) i = (s, i + P.length + 1) :: mkSeenAux P i := by
  intro P
  induction P with
  | nil => intro i; simp [mkSeenAux]
  | cons x xs ih =>
    intro i
    simp [mkSeenAux, ih (i + 1)]
    omega

theorem alook_mkSeenAux (s : String) :
    ∀ (P : List String) (i : Nat), P.Nodup →
      alook s (mkSeenAux P i) = (posOf s P).map (fun j => j + i + 1) := by
  intro P
  induction P using List.reverseRecOn with
  | nil => intro i _; simp [mkSeenAux, posOf, alook]
  | append_singleton P x ih =>
    intro i hnd
    have hP : P.Nodup := (List.nodup_append.mp hnd).1
    have hx : x ∉ P := by
      have := (List.nodup_append.mp hnd).2.2
      intro hmem
      exact this hmem (List.mem_singleton_self x)
    rw [mkSeenAux_append]
    by_cases hxs : x = s
    · subst hxs
      have h1 : posOf x (P ++ [x]) = some P.length := posOf_append_self x P [] hx
      simp [alook, h1]
      omega
    · have h1 : alook s (mkSeenAux P i) = (posOf s P).map (fun j => j + i + 1) :=
        ih i hP
      by_cases hmem : s ∈ P
      · obtain ⟨j, hj⟩ : ∃ j, posOf s P = some j := by
          rcases ho : posOf s P with _ | j
          · exact absurd ((posOf_eq_none s P).mp ho) (by simpa using hmem)
          · exact ⟨j, rfl⟩
        have h2 : posOf s (P ++ [x]) = some j := posOf_append_left s P [x] j hj
        simp [alook, hxs, h2, h1, hj]
      · have h2 : posOf s (P ++ [x]) = none := by
          rw [posOf_eq_none]
          simp [hmem]
          intro hsx
          exact hxs hsx.symm
        have h3 : posOf s P = none := (posOf_eq_none s P).mpr hmem
        simp [alook, hxs, h2, h1, h3]

theorem alook_mkSeen (s : String) (P : List String) (h : P.Nodup) :
    alook s (mkSeen P) = (posOf s P).map (fun j => j + 1) := by
  have := alook_mkSeenAux s P 0 h
  simpa [mkSeen] using this

theorem mem_newNames (s : String) :
    ∀ (ns P : List String), s ∈ ns → s ∈ P ∨ s ∈ newNames P ns := by
  intro ns
  induction ns with
  | nil => intro P h; simp at h
  | cons x rest ih =>
    intro P h
    rcases List.mem_cons.mp h with rfl | hmem
    · by_cases hx : s ∈ P
      · exact Or.inl hx
      · right
        simp [newNames, hx]
    · by_cases hx : x ∈ P
      · rcases ih P hmem with h1 | h1
        · exact Or.inl h1
        · right; simpa [newNames, hx] using h1
      · rcases ih (P ++ [x]) hmem with h1 | h1
        · rcases List.mem_append.mp h1 with h2 | h2
          · exact Or.inl h2
          · right
            simp at h2
            simp [newNames, hx, h2]
        · right
          simp [newNames, hx, h1]

end Named

namespace Named

theorem newNames_cons_mem {s : String} {P ns : List String} (h : s ∈ P) :
    newNames P (s :: ns) = newNames P ns := by simp [newNames, h]

theorem newNames_cons_not_mem {s : String} {P ns : List String} (h : s ∉ P) :
    newNames P (s :: ns) = s :: newNames (P ++ [s]) ns := by simp [newNames, h]

theorem mkSeen_snoc (s : String) (P : List String) :
    mkSeen (P ++ [s]) = (s, P.length + 1) :: mkSeen P := by
  simp [mkSeen, mkSeenAux_append]

theorem nodup_snoc {s : String} {P : List String} (h : P.Nodup) (hs : s ∉ P) :
    (P ++ [s]).Nodup := by
  rw [List.nodup_append]
  refine ⟨h, List.nodup_singleton s, ?_⟩
  intro a ha hb
  simp at hb
  subst hb
  exact hs ha

theorem n2pA_spec (named : List (String × Val)) :
    ∀ (cs : List Char) (st : Option (List Char)) (P : List String), P.Nodup →
      n2pA named cs st (mkSeen P) P.length
        = (cmap (renderN (P ++ newNames P (markerNames (nToksA cs st)))) (nToksA cs st),
           (newNames P (markerNames (nToksA cs st))).map
             (fun s => (alook s named).getD Val.null)) := by
  intro cs
  induction cs with
  | nil =>
    intro st P hP
    match st with
    | none => simp [n2pA, nToksA, markerNames, newNames, cmap]
    | some buf =>
      by_cases hb : buf = []
      · simp [n2pA, nToksA, markerNames, newNames, cmap, renderN, hb]
      · rw [show (n2pA named [] (some buf) (mkSeen P) P.length)
            = (match alook (String.mk buf) (mkSeen P) with
               | some pos => (dollarChars pos, [])
               | none => (dollarChars (P.length + 1),
                   [(alook (String.mk buf) named).getD Val.null])) by
            simp [n2pA, hb]]
        rw [alook_mkSeen _ _ hP]
        rcases hpos : posOf (String.mk buf) P with _ | j
        · have hmem : String.mk buf ∉ P := (posOf_eq_none _ _).mp hpos
          have hself : posOf (String.mk buf) (P ++ [String.mk buf]) = some P.length :=
            posOf_append_self _ P [] hmem
          simp [nToksA, hb, markerNames, newNames_cons_not_mem hmem, newNames,
            cmap, renderN, hself]
        · have hmem : String.mk buf ∈ P := by
            by_contra hmem
            rw [(posOf_eq_none _ _).mpr hmem] at hpos
            cases hpos
          have hleft : posOf (String.mk buf) (P ++ newNames P []) = some j := by
            simpa [newNames] using posOf_append_left _ P (newNames P []) j hpos
          simp [nToksA, hb, markerNames, newNames_cons_mem hmem, newNames,
            cmap, renderN, hleft, hpos]
  | cons c cs ih =>
    intro st P hP
    match st with
    | none =>
      by_cases hc : c = '@'
      · simpa [n2pA, nToksA, hc] using ih (some []) P hP
      · have hIH := ih none P hP
        simp [n2pA, nToksA, hc, cmap, markerNames, renderN, hIH]
    | some buf =>
      by_cases hw : isWord c
      · simpa [n2pA, nToksA, hw] using ih (some (buf ++ [c])) P hP
      · by_cases hb : buf = []
        · subst hb
          by_cases hc : c = '@'
          · have hIH := ih (some []) P hP
            simp [n2pA, nToksA, hw, hc, cmap, markerNames, renderN, hIH,
              show isWord '@' = false from by decide]
          · have hIH := ih none P hP
            simp [n2pA, nToksA, hw, hc, cmap, markerNames, renderN, hIH]
        · have halook := alook_mkSeen (String.mk buf) P hP
          rcases hpos : posOf (String.mk buf) P with _ | j
          · rw [hpos] at halook
            simp only [Option.map_none'] at halook
            have hmem : String.mk buf ∉ P := (posOf_eq_none _ _).mp hpos
            have hnd' := nodup_snoc hP hmem
            by_cases hc : c = '@'
            · have hIH := ih (some []) (P ++ [String.mk buf]) hnd'
              rw [mkSeen_snoc] at hIH
              simp only [List.length_append, List.length_singleton] at hIH
              have horder : ∀ X, (P ++ [String.mk buf]) ++ newNames (P ++ [String.mk buf]) X
                  = P ++ String.mk buf :: newNames (P ++ [String.mk buf]) X := by
                intro X
                simp
              rw [horder] at hIH
              have hself : ∀ X, posOf (String.mk buf)
                  (P ++ String.mk buf :: newNames (P ++ [String.mk buf]) X)
                  = some P.length := fun X => posOf_append_self _ P _ hmem
              simp [n2pA, nToksA, hw, hc, hb, halook, cmap, markerNames,
                newNames_cons_not_mem hmem, renderN, hself, hIH,
                show isWord '@' = false from by decide]
            · have hIH := ih none (P ++ [String.mk buf]) hnd'
              rw [mkSeen_snoc] at hIH
              simp only [List.length_append, List.length_singleton] at hIH
              have horder : ∀ X, (P ++ [String.mk buf]) ++ newNames (P ++ [String.mk buf]) X
                  = P ++ String.mk buf :: newNames (P ++ [String.mk buf]) X := by
                intro X
                simp
              rw [horder] at hIH
              have hself : ∀ X, posOf (String.mk buf)
                  (P ++ String.mk buf :: newNames (P ++ [String.mk buf]) X)
                  = some P.length := fun X => posOf_append_self _ P _ hmem
              simp [n2pA, nToksA, hw, hc, hb, halook, cmap, markerNames,
                newNames_cons_not_mem hmem, renderN, hself, hIH]
          · rw [hpos] at halook
            simp only [Option.map_some'] at halook
            have hmem : String.mk buf ∈ P := by
              by_contra hmem
              rw [(posOf_eq_none _ _).mpr hmem] at hpos
              cases hpos
            have hleft : ∀ X, posOf (String.mk buf) (P ++ X) = some j :=
              fun X => posOf_append_left _ P X j hpos
            by_cases hc : c = '@'
            · have hIH := ih (some []) P hP
              simp [n2pA, nToksA, hw, hc, hb, halook, cmap, markerNames,
                newNames_cons_mem hmem, renderN, hleft, hIH,
                show isWord '@' = false from by decide]
            · have hIH := ih none P hP
              simp [n2pA, nToksA, hw, hc, hb, halook, cmap, markerNames,
                newNames_cons_mem hmem, renderN, hleft, hIH]

end Named

namespace Named

/-- Characters pending in the scanner state (an unconsumed `'@'` plus
buffered word characters). -/
def stChars : Option (List Char) → List Char
  | none => []
  | some buf => '@' :: buf

theorem nToks_no_names (o : List String) :
    ∀ (cs : List Char) (st : Option (List Char)),
      markerNames (nToksA cs st) = [] →
      cmap (renderN o) (nToksA cs st) = stChars st ++ cs := by
  intro cs
  induction cs with
  | nil =>
    intro st h
    match st with
    | none => simp [nToksA, cmap, stChars]
    | some buf =>
      by_cases hb : buf = []
      · simp [nToksA, cmap, stChars, renderN, hb]
      · simp [nToksA, markerNames, hb] at h
  | cons c cs ih =>
    intro st h
    match st with
    | none =>
      by_cases hc : c = '@'
      · have h2 : markerNames (nToksA cs (some [])) = [] := by
          simpa [nToksA, hc] using h
        simpa [nToksA, hc, stChars] using ih (some []) h2
      · have h2 : markerNames (nToksA cs none) = [] := by
          simpa [nToksA, hc, markerNames] using h
        simp [nToksA, hc, cmap, renderN, stChars, ih none h2]
    | some buf =>
      by_cases hw : isWord c
      · have h2 : markerNames (nToksA cs (some (buf ++ [c]))) = [] := by
          simpa [nToksA, hw] using h
        have := ih (some (buf ++ [c])) h2
        simp [nToksA, hw, stChars] at this ⊢
        simp [this]
      · by_cases hb : buf = []
        · subst hb
          by_cases hc : c = '@'
          · have h2 : markerNames (nToksA cs (some [])) = [] := by
              simpa [nToksA, hw, hc, markerNames] using h
            simp [nToksA, hw, hc, cmap, renderN, stChars, ih (some []) h2]
          · have h2 : markerNames (nToksA cs none) = [] := by
              simpa [nToksA, hw, hc, markerNames] using h
            simp [nToksA, hw, hc, cmap, renderN, stChars, ih none h2]
        · exfalso
          by_cases hc : c = '@' <;>
            simp [nToksA, hw, hb, hc, markerNames] at h

theorem n2pA_ext (m1 m2 : List (String × Val))
    (hagree : ∀ s, alook s m1 = alook s m2) :
    ∀ (cs : List Char) (st : Option (List Char)) (seen : List (String × Nat)) (k : Nat),
      n2pA m1 cs st seen k = n2pA m2 cs st seen k := by
  intro cs
  induction cs with
  | nil =>
    intro st seen k
    match st with
    | none => rfl
    | some buf =>
      by_cases hb : buf = []
      · simp [n2pA, hb]
      · simp only [n2pA, hb, if_neg hb, hagree]
  | cons c cs ih =>
    intro st seen k
    match st with
    | none =>
      by_cases hc : c = '@' <;> simp [n2pA, hc, ih]
    | some buf =>
      by_cases hw : isWord c
      · simp [n2pA, hw, ih]
      · by_cases hb : buf = []
        · by_cases hc : c = '@' <;> simp [n2pA, hw, hb, hc, ih]
        · by_cases hc : c = '@' <;> simp [n2pA, hw, hb, hc, ih, hagree]

theorem alook_nil_agree (m1 m2 : List (String × Val))
    (hagree : ∀ s, alook s m1 = alook s m2) (h1 : m1 = []) : m2 = [] := by
  subst h1
  match m2 with
  | [] => rfl
  | (k, v) :: rest =>
    have := hagree k
    simp [alook] at this

theorem namedToPositional_ext (q : String) (m1 m2 : List (String × Val))
    (hagree : ∀ s, alook s m1 = alook s m2) :
    namedToPositional q m1 = namedToPositional q m2 := by
  by_cases h1 : m1 = []
  · have h2 := alook_nil_agree m1 m2 hagree h1
    subst h1; subst h2; rfl
  · have h2 : m2 ≠ [] := by
      intro h2
      exact h1 (alook_nil_agree m2 m1 (fun s => (hagree s).symm) h2)
    have hl1 : ¬(m1.length = 0) := by simpa [List.length_eq_zero] using h1
    have hl2 : ¬(m2.length = 0) := by simpa [List.length_eq_zero] using h2
    simp [namedToPositional, hl1, hl2, n2pA_ext m1 m2 hagree]

end Named

/-- C4: with every name of the text covered by the mapping, the
named-to-positional bridge rewrites the text token-wise, assigning each
distinct name the next unused position at its first occurrence in
left-to-right text order and rewriting every later occurrence of that
name to the same position; the returned values are the mapping's values
in first-occurrence order; and the result depends on the mapping only
through lookup — never on iteration order. -/
theorem namedToPositional_first_occurrence (q : String) (m : List (String × Val))
    (hcov : (Named.markerNames (Named.nToks q.data)).all
      (fun nm => (alook nm m).isSome) = true) :
    (Named.namedToPositional q m
      = (String.mk (cmap
          (Named.renderN (Named.newNames [] (Named.markerNames (Named.nToks q.data))))
          (Named.nToks q.data)),
         (Named.newNames [] (Named.markerNames (Named.nToks q.data))).map
           (fun s => (alook s m).getD Val.null)))
    ∧ ∀ m2 : List (String × Val), (∀ s, alook s m2 = alook s m) →
        Named.namedToPositional q m2 = Named.namedToPositional q m := by
  constructor
  · match m with
    | [] =>
      have hnames : Named.markerNames (Named.nToks q.data) = [] := by
        rcases h : Named.markerNames (Named.nToks q.data) with _ | ⟨nm, rest⟩
        · rfl
        · rw [h] at hcov
          simp [List.all_cons, alook] at hcov
      have hflat := Named.nToks_no_names
        (Named.newNames [] (Named.markerNames (Named.nToks q.data)))
        q.data none hnames
      simp only [Named.nToks] at hnames hflat ⊢
      rw [hflat]
      simp [Named.namedToPositional, hnames, Named.newNames, Named.stChars]
    | x :: mrest =>
      have hlen : ¬((x :: mrest).length = 0) := by simp
      have hspec := Named.n2pA_spec (x :: mrest) q.data none [] List.nodup_nil
      simp only [Named.mkSeen, Named.mkSeenAux, List.length_nil] at hspec
      simp [Named.namedToPositional, hlen, Named.nToks, hspec]
  · intro m2 hagree
    exact Named.namedToPositional_ext q m2 m hagree

/-- Witness for C4 at the spec's concrete scenario:
`"a = @id OR b = @id"` with `{id: 42}` yields `"a = $1 OR b = $1"` with
values `[42]` — the single position reused, not two. -/
theorem namedToPositional_first_occurrence_witness :
    Named.namedToPositional "a = @id OR b = @id" [("id", Val.int 42)]
      = ("a = $1 OR b = $1", [Val.int 42]) := by
  have h := (namedToPositional_first_occurrence "a = @id OR b = @id"
    [("id", Val.int 42)] (by decide)).1
  rw [h]
  decide

/-- C1 counterexample: the bridge has no error path.  With the mapping
`{x: 1}` — which has no entry for `id` — the text `"a = @id"` is still
converted, binding the missing name to the zero value `nil`
(`args = append(args, named[name])` on a missing key); and with an empty
mapping the text is returned unchanged, leaving the literal `@id` in
place.  Both are silent outputs where the claim demands a hard error. -/
theorem namedToPositional_missing_name_counterexample :
    Named.namedToPositional "a = @id" [("x", Val.int 1)] = ("a = $1", [Val.null])
    ∧ Named.namedToPositional "a = @id" [] = ("a = @id", []) := by
  constructor
  · decide
  · rfl

/-- C1 (amended): a name in the text with no entry in the mapping is not
an error: with an empty mapping the bridge returns the text unchanged
(the `@name` markers left in place), and with a nonempty mapping the
missing name is assigned a position like any other and its bound value
is the zero value `nil` (`Val.null`), which appears in the returned
positional argument list. -/
theorem namedToPositional_missing_name_amended :
    (∀ q : String, Named.namedToPositional q [] = (q, []))
    ∧ ∀ (q : String) (m : List (String × Val)) (nm : String),
        m ≠ [] → nm ∈ Named.markerNames (Named.nToks q.data) →
        alook nm m = none →
        Val.null ∈ (Named.namedToPositional q m).2 := by
  constructor
  · intro q; rfl
  · intro q m nm hm hmem halook
    have hlen : ¬(m.length = 0) := by simpa [List.length_eq_zero] using hm
    have hspec := Named.n2pA_spec m q.data none [] List.nodup_nil
    simp only [Named.mkSeen, Named.mkSeenAux, List.length_nil] at hspec
    have hargs : (Named.namedToPositional q m).2
        = (Named.newNames [] (Named.markerNames (Named.nToks q.data))).map
            (fun s => (alook s m).getD Val.null) := by
      simp [Named.namedToPositional, hlen, Named.nToks, hspec]
    rw [hargs]
    have hin : nm ∈ Named.newNames [] (Named.markerNames (Named.nToks q.data)) := by
      rcases Named.mem_newNames nm (Named.markerNames (Named.nToks q.data)) [] hmem with h | h
      · simp at h
      · exact h
    exact List.mem_map.mpr ⟨nm, hin, by rw [halook]; rfl⟩

/-- Witness for C1 (amended): converting `"a = @id"` with the nonempty
mapping `{x: 1}` — `id` missing — produces an argument list containing
the zero value `nil`. -/
theorem namedToPositional_missing_name_witness :
    Val.null ∈ (Named.namedToPositional "a = @id" [("x", Val.int 1)]).2 :=
  namedToPositional_missing_name_amended.2 "a = @id" [("x", Val.int 1)] "id"
    (by decide) (by decide) (by decide)
